import Mathlib

/-!
Verification of the graph-growth and path-extraction engine of
`artist_finder.py` (music-utils).

The engine works over undirected `networkx` graphs whose nodes are artist
identities.  We embed such a graph as a finite node set together with a
finite set of ordered edge pairs; every operation of the source inserts an
edge in both orientations, mirroring `networkx`'s symmetric adjacency
storage (a self-loop `(u,u)` is stored once and contributes 2 to degree,
as in `networkx`).  The external "Relation Source" (`Artist.related`) is a
parameter `rel : α → Finset α`.  The `grow` while-loop is embedded with an
explicit fuel bound (the Python loop either discovers a new node or raises
each round, so any sufficiently large fuel reproduces it); running out of
fuel is a distinguished outcome so that no theorem confuses it with the
source's actual behaviour.
-/

deriving instance DecidableEq for Except

set_option linter.unusedSectionVars false

namespace MusicUtils

variable {α : Type} [LinearOrder α]

/-- An undirected graph in the style of `networkx.Graph`: a node set and a
set of ordered pairs closed under swapping (both orientations of every
edge are stored by the operations below). -/
structure Graph (α : Type) where
  nodes : Finset α
  edges : Finset (α × α)
deriving DecidableEq

/-- A deterministic listing of a finite set, standing in for Python's
(arbitrary) set iteration order.  Defined through `insertionSort` so that
it evaluates inside the kernel. -/
def listOf [LinearOrder α] (s : Finset α) : List α :=
  Quot.liftOn s.val (fun l => l.insertionSort (· ≤ ·))
    (fun l₁ l₂ h =>
      List.eq_of_perm_of_sorted
        ((List.perm_insertionSort _ l₁).trans
          (h.trans (List.perm_insertionSort _ l₂).symm))
        (List.sorted_insertionSort _ l₁) (List.sorted_insertionSort _ l₂))

namespace Graph

/-- `nx.Graph()`: the empty graph. -/
def empty : Graph α := ⟨∅, ∅⟩

/-- `graph.add_nodes_from(s)`. -/
def addNodes (g : Graph α) (s : Finset α) : Graph α :=
  ⟨g.nodes ∪ s, g.edges⟩

/-- `graph.add_edge(u, v)`: inserts both endpoints as nodes and the edge in
both orientations. -/
def addEdge (g : Graph α) (u v : α) : Graph α :=
  ⟨insert u (insert v g.nodes), insert (u, v) (insert (v, u) g.edges)⟩

/-- `graph.remove_nodes_from(s)`: removes the nodes and every incident
edge, as `networkx` does. -/
def removeNodes (g : Graph α) (s : Finset α) : Graph α :=
  ⟨g.nodes \ s, g.edges.filter (fun e => e.1 ∉ s ∧ e.2 ∉ s)⟩

/-- The neighbours of `u`: endpoints opposite `u` on edges touching `u`
(`networkx` adjacency). -/
def neighbors (g : Graph α) (u : α) : Finset α :=
  (g.edges.filter (fun e => e.1 = u ∨ e.2 = u)).image
    (fun e => if e.1 = u then e.2 else e.1)

/-- `graph.degree(x)` as in `networkx`: one per incident edge, with a
self-loop counted twice. -/
def degree (g : Graph α) (x : α) : Nat :=
  (g.edges.filter (fun e => e.1 = x)).card + (if (x, x) ∈ g.edges then 1 else 0)

/-- `u` and `v` are joined by an edge. -/
def Adj (g : Graph α) (u v : α) : Prop :=
  (u, v) ∈ g.edges ∨ (v, u) ∈ g.edges

instance (g : Graph α) (u v : α) : Decidable (Adj g u v) := by
  unfold Adj; infer_instance

end Graph

open Graph

/-- One step of breadth-first closure: a set together with all its
neighbours. -/
def nbrStep (g : Graph α) (s : Finset α) : Finset α :=
  s ∪ s.biUnion (fun u => neighbors g u)

/-- The set of nodes reachable from `u`, computed by iterating `nbrStep`
more times than the graph can have distinct vertices. -/
def reachSet (g : Graph α) (u : α) : Finset α :=
  (nbrStep g)^[g.nodes.card + 2 * g.edges.card + 1] {u}

/-- `nx.has_path(g, u, v)` (both endpoints are graph nodes wherever `grow`
uses it, so the `NodeNotFound` branch of `networkx` is unreachable there). -/
def hasPathB (g : Graph α) (u v : α) : Bool :=
  decide (v ∈ reachSet g u)

/-- `itertools.combinations(l, 2)` on a duplicate-free listing. -/
def pairsOf : List α → List (α × α)
  | [] => []
  | x :: xs => (xs.map (fun y => (x, y))) ++ pairsOf xs

/-- `all(nx.has_path(g, s, t) for s, t in combinations(seeds, 2))`. -/
def allPairsB (g : Graph α) (l : List α) : Bool :=
  (pairsOf l).all (fun pr => hasPathB g pr.1 pr.2)

/-- `expand(artists, graph)` from the source: copy the base graph (empty
when omitted), add the given artists as nodes, and add an edge from each
artist to each of its related artists. -/
def expand (rel : α → Finset α) (artists : Finset α) (base : Option (Graph α)) :
    Graph α :=
  let g := match base with
    | none => Graph.empty
    | some g => g
  let g := g.addNodes artists
  (listOf artists).foldl
    (fun g a => (listOf (rel a)).foldl (fun g r => g.addEdge a r) g) g

/-- The body of the finishing pass of `grow` for a single artist:
`for related in artist.related(): if related in graph.nodes:
graph.add_edge(artist, related)`. -/
def finishOne (rel : α → Finset α) (g : Graph α) (a : α) : Graph α :=
  (listOf (rel a)).foldl (fun g r => if r ∈ g.nodes then g.addEdge a r else g) g

/-- The finishing pass of `grow`: the loop above run over every artist of
the final frontier. -/
def finishPass (rel : α → Finset α) (g : Graph α) (na : Finset α) : Graph α :=
  (listOf na).foldl (finishOne rel) g

/-- Outcome of `grow`: a returned graph, the
`RuntimeError("No new artists found.")`, or fuel exhaustion of the
embedding (never the source's behaviour for adequate fuel). -/
inductive GrowResult (α : Type) where
  | ok (g : Graph α)
  | stalled
  | fuelOut
deriving DecidableEq

/-- The `while` loop of `grow` carrying the current graph and frontier:
while not all seed pairs are connected, expand the frontier; if nothing
new was discovered raise, else continue; on loop exit run the finishing
pass over the last frontier. -/
def growLoop (rel : α → Finset α) (seeds : Finset α) :
    Nat → Graph α → Finset α → GrowResult α
  | 0, _, _ => .fuelOut
  | fuel + 1, g, na =>
    if allPairsB g (listOf seeds) then .ok (finishPass rel g na)
    else
      let g' := expand rel na (some g)
      let na' := g'.nodes \ g.nodes
      if na' = ∅ then .stalled
      else growLoop rel seeds fuel g' na'

/-- `grow(seeds, graph)` from the source: copy the base graph, add the
seeds as nodes, then run the expansion loop with the seeds as the initial
frontier. -/
def grow (rel : α → Finset α) (seeds : Finset α) (base : Option (Graph α))
    (fuel : Nat) : GrowResult α :=
  let g0 := match base with
    | none => Graph.empty
    | some g => g
  let g0 := g0.addNodes seeds
  growLoop rel seeds fuel g0 seeds

/-- `[x for x in graph.nodes if graph.degree(x) < 2 and x not in keepers]`. -/
def toRemove (g : Graph α) (keepers : Finset α) : Finset α :=
  g.nodes.filter (fun x => g.degree x < 2 ∧ x ∉ keepers)

/-- The `while True` loop of `trim`: remove the current batch of
unprotected leaves and repeat until a pass removes nothing.  Each
productive pass strictly shrinks the node set, so `g.nodes.card + 1`
rounds of fuel always reach the fixpoint. -/
def trimAux (keepers : Finset α) : Nat → Graph α → Graph α
  | 0, g => g
  | fuel + 1, g =>
    let tr := toRemove g keepers
    if tr = ∅ then g else trimAux keepers fuel (g.removeNodes tr)

/-- `trim(graph, keepers)` from the source. -/
def trim (g : Graph α) (keepers : Finset α) : Graph α :=
  trimAux keepers (g.nodes.card + 1) g

/-- A simple path from `u` to `v` in `g`: a duplicate-free node sequence
starting at `u`, ending at `v`, with consecutive nodes adjacent. -/
def IsSimplePath (g : Graph α) (u v : α) (p : List α) : Prop :=
  p.head? = some u ∧ p.getLast? = some v ∧ p.Nodup ∧ p.Chain' (Adj g)

instance (g : Graph α) (u v : α) (p : List α) :
    Decidable (IsSimplePath g u v p) := by
  unfold IsSimplePath; infer_instance

/-- Depth-first enumeration of the simple paths from `u` to `v` avoiding
`visited`; `fuel` bounds the path length. -/
def spAux (g : Graph α) (v : α) : Nat → α → Finset α → List (List α)
  | 0, _, _ => []
  | fuel + 1, u, visited =>
    if u = v then [[v]]
    else
      (listOf ((neighbors g u) \ (insert u visited))).flatMap
        (fun w => (spAux g v fuel w (insert u visited)).map (fun q => u :: q))

/-- All simple paths from `u` to `v` in `g`.  A simple path has at most
`1 + 2 * g.edges.card` nodes, so the fuel below is sufficient. -/
def allSimplePaths (g : Graph α) (u v : α) : List (List α) :=
  spAux g v (g.nodes.card + 2 * g.edges.card + 2) u ∅

/-- Ordering of paths by length (number of nodes, Python's `len(path)`). -/
def lenLE (p q : List α) : Prop := p.length ≤ q.length

instance : DecidableRel (lenLE (α := α)) := fun p q => Nat.decLe p.length q.length

instance : IsTotal (List α) lenLE := ⟨fun p q => Nat.le_total p.length q.length⟩

instance : IsTrans (List α) lenLE := ⟨fun _ _ _ h h' => Nat.le_trans h h'⟩

/-- Errors of `networkx` path enumeration: `NodeNotFound` when an endpoint
is not a graph node, `NetworkXNoPath` when no path exists. -/
inductive NxError where
  | nodeNotFound
  | noPath
deriving DecidableEq

/-- All simple paths from `u` to `v`, in non-decreasing order of length
(number of nodes). -/
def sortedPaths (g : Graph α) (u v : α) : List (List α) :=
  List.insertionSort lenLE (allSimplePaths g u v)

/-- The endpoints occurring in the edge set. -/
def edgeVerts (g : Graph α) : Finset α :=
  g.edges.image Prod.fst ∪ g.edges.image Prod.snd

/-- `nx.shortest_simple_paths(g, u, v)`, modelled from its documented
contract: it yields every simple path between `u` and `v` in order of
non-decreasing length, raises `NodeNotFound` if an endpoint is missing
from the graph, and raises `NetworkXNoPath` if no path exists.  The whole
(finite) enumeration is materialised as a sorted list. -/
def shortest_simple_paths (g : Graph α) (u v : α) :
    Except NxError (List (List α)) :=
  if u ∉ g.nodes then .error .nodeNotFound
  else if v ∉ g.nodes then .error .nodeNotFound
  else
    match sortedPaths g u v with
    | [] => .error .noPath
    | p :: ps => .ok (p :: ps)

/-- The inner `for path in nx.shortest_simple_paths(...)` loop of
`paths_subgraph`: with no bound, the first path fixes the cutoff at its
own length; with a bound, keep paths of length up to the bound and stop at
the first longer one. -/
def collectPaths (ml : Option Nat) : List (List α) → List (List α)
  | [] => []
  | p :: ps =>
    match ml with
    | none => p :: collectPaths (some p.length) ps
    | some m => if p.length ≤ m then p :: collectPaths (some m) ps else []

/-- The paths collected for one seed pair. -/
def pathsFor (g : Graph α) (ml : Option Nat) (u v : α) :
    Except NxError (List (List α)) :=
  (shortest_simple_paths g u v).map (collectPaths ml)

/-- The `paths` dictionary of `paths_subgraph`, built pair by pair in
`combinations` order; the first failing pair aborts the call. -/
def buildTable (g : Graph α) (ml : Option Nat) :
    List (α × α) → Except NxError (List ((α × α) × List (List α)))
  | [] => .ok []
  | pr :: prs =>
    match pathsFor g ml pr.1 pr.2 with
    | .error e => .error e
    | .ok entry =>
      match buildTable g ml prs with
      | .error e => .error e
      | .ok t => .ok ((pr, entry) :: t)

/-- The `keepers` set of `paths_subgraph`: every node on any collected
path. -/
def keepersOf (tbl : List ((α × α) × List (List α))) : Finset α :=
  tbl.foldl (fun acc e => e.2.foldl (fun acc p => acc ∪ p.toFinset) acc) ∅

/-- `paths_subgraph(graph, seeds, max_len)` from the source: build the
path table over all seed pairs, then delete every node that is on no
collected path (together with its incident edges). -/
def paths_subgraph (g : Graph α) (seeds : List α) (ml : Option Nat) :
    Except NxError (Graph α × List ((α × α) × List (List α))) :=
  match buildTable g ml (pairsOf seeds) with
  | .error e => .error e
  | .ok tbl => .ok (g.removeNodes (g.nodes \ keepersOf tbl), tbl)

/-!
## Imperative store model

Python graphs are mutable heap objects.  To express that the source never
mutates a caller's graph (each operation starts with `graph.copy()` and
mutates only the copy), we re-embed each operation statement by statement
over an explicit store of graph objects: a list of graphs addressed by
allocation index.  Copies allocate a fresh cell; every subsequent mutation
(`add_nodes_from`, `add_edge`, `remove_nodes_from`, ...) is a `setRef` on
that fresh cell.
-/

/-- A heap address of a graph object. -/
abbrev Ref := Nat

/-- The heap: allocated graph objects in allocation order. -/
abbrev Store (α : Type) := List (Graph α)

/-- Read the graph object at `r` (arbitrary default off the heap). -/
def getRef (s : Store α) (r : Ref) : Graph α :=
  s.getD r ⟨∅, ∅⟩

/-- Mutate the graph object at `r` in place. -/
def setRef (s : Store α) (r : Ref) (g : Graph α) : Store α :=
  s.set r g

/-- Allocate a fresh graph object, returning its address. -/
def alloc (s : Store α) (g : Graph α) : Store α × Ref :=
  (s ++ [g], s.length)

/-- `expand` over the store: `graph = graph.copy()` (or a fresh empty
graph), then `add_nodes_from`, then one `add_edge` per related artist —
every mutation hitting only the fresh copy. -/
def expandImp (rel : α → Finset α) (artists : Finset α) (base : Option Ref)
    (s : Store α) : Store α × Ref :=
  let p := match base with
    | none => alloc s ⟨∅, ∅⟩
    | some r0 => alloc s (getRef s r0)
  let s := setRef p.1 p.2 ((getRef p.1 p.2).addNodes artists)
  let s := (listOf artists).foldl
    (fun s a => (listOf (rel a)).foldl
      (fun s rc => setRef s p.2 ((getRef s p.2).addEdge a rc)) s) s
  (s, p.2)

/-- Failure outcomes of `grow`. -/
inductive GrowErr where
  | stalled
  | fuelOut
deriving DecidableEq

/-- The `grow` while-loop over the store: `graph` is the local variable
holding the current object's address; each round calls `expandImp` (which
allocates the next snapshot) and rebinds the local to the new address. -/
def growLoopImp (rel : α → Finset α) (seeds : Finset α) :
    Nat → Store α → Ref → Finset α → Store α × Except GrowErr (Ref × Finset α)
  | 0, s, _, _ => (s, .error .fuelOut)
  | fuel + 1, s, r, na =>
    if allPairsB (getRef s r) (listOf seeds) then (s, .ok (r, na))
    else
      let p := expandImp rel na (some r) s
      let na' := (getRef p.1 p.2).nodes \ (getRef p.1 r).nodes
      if na' = ∅ then (p.1, .error .stalled)
      else growLoopImp rel seeds fuel p.1 p.2 na'

/-- The finishing pass of `grow` over the store: one `add_edge` mutation of
the final graph object per qualifying related artist. -/
def finishImp (rel : α → Finset α) (s : Store α) (r : Ref) (na : Finset α) :
    Store α :=
  (listOf na).foldl (fun s a =>
    (listOf (rel a)).foldl (fun s rc =>
      if rc ∈ (getRef s r).nodes then setRef s r ((getRef s r).addEdge a rc)
      else s) s) s

/-- The first statements of `grow` over the store: copy the base graph (or
allocate an empty one) and add the seeds as nodes of the copy. -/
def growInit (seeds : Finset α) (base : Option Ref) (s : Store α) :
    Store α × Ref :=
  let p := match base with
    | none => alloc s ⟨∅, ∅⟩
    | some r0 => alloc s (getRef s r0)
  (setRef p.1 p.2 ((getRef p.1 p.2).addNodes seeds), p.2)

/-- `grow` over the store. -/
def growImp (rel : α → Finset α) (seeds : Finset α) (base : Option Ref)
    (fuel : Nat) (s : Store α) : Store α × Except GrowErr Ref :=
  let q := growInit seeds base s
  match growLoopImp rel seeds fuel q.1 q.2 seeds with
  | (s', .ok t) => (finishImp rel s' t.1 t.2, .ok t.1)
  | (s', .error e) => (s', .error e)

/-- The `trim` while-loop over the store: each productive pass is one
`remove_nodes_from` mutation of the copy. -/
def trimLoopImp (keepers : Finset α) : Nat → Store α → Ref → Store α
  | 0, s, _ => s
  | fuel + 1, s, r =>
    let g := getRef s r
    let tr := toRemove g keepers
    if tr = ∅ then s else trimLoopImp keepers fuel (setRef s r (g.removeNodes tr)) r

/-- `trim` over the store. -/
def trimImp (keepers : Finset α) (r0 : Ref) (s : Store α) : Store α × Ref :=
  let p := alloc s (getRef s r0)
  (trimLoopImp keepers ((getRef p.1 p.2).nodes.card + 1) p.1 p.2, p.2)

/-- `paths_subgraph` over the store: copy, then a pure path enumeration
(`networkx` generators do not mutate the graph), then one
`remove_nodes_from` mutation of the copy. -/
def paths_subgraphImp (r0 : Ref) (seeds : List α) (ml : Option Nat)
    (s : Store α) : Store α × Except NxError Ref :=
  let p := alloc s (getRef s r0)
  let g := getRef p.1 p.2
  match buildTable g ml (pairsOf seeds) with
  | .error e => (p.1, .error e)
  | .ok tbl => (setRef p.1 p.2 (g.removeNodes (g.nodes \ keepersOf tbl)), .ok p.2)

/-!
## Concrete relation sources and graphs

Small concrete instances used to evaluate the embedded operations at
specific inputs (stubs in the sense of the repository's test scenarios).
-/

/-- Stub relation source `a → {b}`, everything else unrelated (with `0` as
`a` and `1` as `b`). -/
def relA : Nat → Finset Nat
  | 0 => {1}
  | _ => ∅

/-- Stub relation source `a → {x}`, `x → {b}`, `b → {}` (with `0, 1, 2` as
`a, x, b`). -/
def relB : Nat → Finset Nat
  | 0 => {1}
  | 1 => {2}
  | _ => ∅

/-- The path graph `0 — 1 — 2`. -/
def pathG : Graph Nat :=
  ⟨{0, 1, 2}, {(0, 1), (1, 0), (1, 2), (2, 1)}⟩

/-- Two disjoint three-edge paths `0—1—2—3` and `0—4—5—3` between `0` and
`3`. -/
def twoPathsG : Graph Nat :=
  ⟨{0, 1, 2, 3, 4, 5},
   {(0, 1), (1, 0), (1, 2), (2, 1), (2, 3), (3, 2),
    (0, 4), (4, 0), (4, 5), (5, 4), (5, 3), (3, 5)}⟩

/-! ## Basic lemmas -/

theorem mem_listOf {s : Finset α} {a : α} : a ∈ listOf s ↔ a ∈ s := by
  rcases s with ⟨m, nd⟩
  induction m using Quotient.inductionOn with
  | h l =>
    show a ∈ l.insertionSort (· ≤ ·) ↔ _
    rw [List.mem_insertionSort]
    exact Iff.rfl

theorem listOf_singleton (a : α) : listOf ({a} : Finset α) = [a] := rfl

theorem listOf_nodup (s : Finset α) : (listOf s).Nodup := by
  rcases s with ⟨m, nd⟩
  induction m using Quotient.inductionOn with
  | h l =>
    exact ((List.perm_insertionSort _ l).nodup_iff).mpr (by simpa using nd)

theorem toRemove_subset (g : Graph α) (K : Finset α) : toRemove g K ⊆ g.nodes :=
  Finset.filter_subset _ _

theorem mem_toRemove {g : Graph α} {K : Finset α} {x : α} :
    x ∈ toRemove g K ↔ x ∈ g.nodes ∧ g.degree x < 2 ∧ x ∉ K := by
  simp [toRemove]

/-! ## Trim: fixpoint and keeper preservation -/

theorem trimAux_fixpoint (K : Finset α) :
    ∀ fuel (g : Graph α), g.nodes.card < fuel →
      toRemove (trimAux K fuel g) K = ∅ := by
  intro fuel
  induction fuel with
  | zero => intro g h; exact absurd h (Nat.not_lt_zero _)
  | succ n ih =>
    intro g h
    by_cases htr : toRemove g K = ∅
    · simp [trimAux, htr]
    · have hsub : toRemove g K ⊆ g.nodes := toRemove_subset g K
      have hne : (toRemove g K).Nonempty := Finset.nonempty_iff_ne_empty.mpr htr
      have hcard : (g.removeNodes (toRemove g K)).nodes.card < g.nodes.card := by
        show (g.nodes \ toRemove g K).card < g.nodes.card
        rw [Finset.card_sdiff hsub]
        have h1 : 0 < (toRemove g K).card := Finset.card_pos.mpr hne
        have h2 : 0 < g.nodes.card :=
          Finset.card_pos.mpr (hne.mono hsub)
        omega
      have hlt : (g.removeNodes (toRemove g K)).nodes.card < n := by
        have := Nat.lt_of_lt_of_le hcard (Nat.lt_succ_iff.mp h)
        omega
      simpa [trimAux, htr] using ih _ hlt

theorem trimAux_keeper (K : Finset α) {k : α} (hk : k ∈ K) :
    ∀ fuel (g : Graph α), k ∈ g.nodes → k ∈ (trimAux K fuel g).nodes := by
  intro fuel
  induction fuel with
  | zero => intro g h; simpa [trimAux] using h
  | succ n ih =>
    intro g h
    by_cases htr : toRemove g K = ∅
    · simpa [trimAux, htr] using h
    · have : k ∈ (g.removeNodes (toRemove g K)).nodes := by
        show k ∈ g.nodes \ toRemove g K
        rw [Finset.mem_sdiff]
        refine ⟨h, fun hmem => ?_⟩
        exact (mem_toRemove.mp hmem).2.2 hk
      simpa [trimAux, htr] using ih _ this

theorem trim_fixpoint (g : Graph α) (K : Finset α) :
    toRemove (trim g K) K = ∅ :=
  trimAux_fixpoint K (g.nodes.card + 1) g (Nat.lt_succ_self _)

/-! ## Claims about `trim` -/

/-- C6: `trim` never removes a keeper, whatever its degree, and every node
of the result with degree `< 2` is a keeper. -/
theorem claim_C6_trim_keepers (g : Graph α) (K : Finset α) :
    (∀ k ∈ K, k ∈ g.nodes → k ∈ (trim g K).nodes) ∧
    (∀ x ∈ (trim g K).nodes, (trim g K).degree x < 2 → x ∈ K) := by
  constructor
  · intro k hk hg
    exact trimAux_keeper K hk _ g hg
  · intro x hx hdeg
    by_contra hxK
    have : x ∈ toRemove (trim g K) K := mem_toRemove.mpr ⟨hx, hdeg, hxK⟩
    rw [trim_fixpoint] at this
    exact absurd this (Finset.not_mem_empty x)

theorem claim_C6_trim_keepers_witness :
    0 ∈ (trim (⟨{0, 1}, {(0, 1), (1, 0)}⟩ : Graph Nat) {0}).nodes ∧
    0 ∈ ({0} : Finset Nat) := by
  refine ⟨(claim_C6_trim_keepers ⟨{0, 1}, {(0, 1), (1, 0)}⟩ {0}).1 0
    (by decide) (by decide),
    (claim_C6_trim_keepers ⟨{0, 1}, {(0, 1), (1, 0)}⟩ {0}).2 0
    (by decide) (by decide)⟩

/-- C7: `trim` is idempotent: re-running it on its own output with the same
keepers returns the output unchanged. -/
theorem claim_C7_trim_idempotent (g : Graph α) (K : Finset α) :
    trim (trim g K) K = trim g K := by
  have h := trim_fixpoint g K
  show trimAux K ((trim g K).nodes.card + 1) (trim g K) = trim g K
  simp [trimAux, h]

/-! ## The finishing pass of `grow` -/

theorem finish_inner_nodes (a : α) :
    ∀ (l : List α) (g : Graph α), a ∈ g.nodes →
      (l.foldl (fun g r => if r ∈ g.nodes then g.addEdge a r else g) g).nodes
        = g.nodes := by
  intro l
  induction l with
  | nil => intro g _; rfl
  | cons r l ih =>
    intro g ha
    by_cases hr : r ∈ g.nodes
    · have hnodes : (g.addEdge a r).nodes = g.nodes := by
        show insert a (insert r g.nodes) = g.nodes
        rw [Finset.insert_eq_self.mpr hr, Finset.insert_eq_self.mpr ha]
      have := ih (g.addEdge a r) (by rw [hnodes]; exact ha)
      simpa [hr, hnodes] using this
    · simpa [hr] using ih g ha

theorem finish_inner_edges (a : α) (e : α × α) :
    ∀ (l : List α) (g : Graph α), a ∈ g.nodes →
      (e ∈ (l.foldl (fun g r => if r ∈ g.nodes then g.addEdge a r else g) g).edges
        ↔ e ∈ g.edges ∨ ∃ r ∈ l, r ∈ g.nodes ∧ (e = (a, r) ∨ e = (r, a))) := by
  intro l
  induction l with
  | nil => intro g _; simp
  | cons r l ih =>
    intro g ha
    by_cases hr : r ∈ g.nodes
    · have hnodes : (g.addEdge a r).nodes = g.nodes := by
        show insert a (insert r g.nodes) = g.nodes
        rw [Finset.insert_eq_self.mpr hr, Finset.insert_eq_self.mpr ha]
      have hih := ih (g.addEdge a r) (by rw [hnodes]; exact ha)
      have hedges : ∀ e', e' ∈ (g.addEdge a r).edges ↔
          e' = (a, r) ∨ e' = (r, a) ∨ e' ∈ g.edges := by
        intro e'; show e' ∈ insert (a, r) (insert (r, a) g.edges) ↔ _; simp
      simp only [List.foldl_cons, if_pos hr] at *
      rw [hih, hedges e, hnodes]
      constructor
      · rintro ((he | he | he) | ⟨r', hr', hr'n, he⟩)
        · exact Or.inr ⟨r, List.mem_cons_self r l, hr, Or.inl he⟩
        · exact Or.inr ⟨r, List.mem_cons_self r l, hr, Or.inr he⟩
        · exact Or.inl he
        · exact Or.inr ⟨r', List.mem_cons_of_mem r hr', hr'n, he⟩
      · rintro (he | ⟨r', hr', hr'n, he⟩)
        · exact Or.inl (Or.inr (Or.inr he))
        · rcases List.mem_cons.mp hr' with rfl | hr'l
          · rcases he with he | he
            · exact Or.inl (Or.inl he)
            · exact Or.inl (Or.inr (Or.inl he))
          · exact Or.inr ⟨r', hr'l, hr'n, he⟩
    · have hih := ih g ha
      simp only [List.foldl_cons, if_neg hr]
      rw [hih]
      constructor
      · rintro (he | ⟨r', hr', hr'n, he⟩)
        · exact Or.inl he
        · exact Or.inr ⟨r', List.mem_cons_of_mem r hr', hr'n, he⟩
      · rintro (he | ⟨r', hr', hr'n, he⟩)
        · exact Or.inl he
        · rcases List.mem_cons.mp hr' with rfl | hr'l
          · exact absurd hr'n hr
          · exact Or.inr ⟨r', hr'l, hr'n, he⟩

theorem finish_inner_id (a : α) :
    ∀ (l : List α) (g : Graph α), (∀ r ∈ l, r ∉ g.nodes) →
      l.foldl (fun g r => if r ∈ g.nodes then g.addEdge a r else g) g = g := by
  intro l
  induction l with
  | nil => intro g _; rfl
  | cons r l ih =>
    intro g h
    have hr : r ∉ g.nodes := h r (List.mem_cons_self r l)
    simp only [List.foldl_cons, if_neg hr]
    exact ih g (fun r' hr' => h r' (List.mem_cons_of_mem r hr'))

theorem finishOne_nodes (rel : α → Finset α) (g : Graph α) (a : α)
    (ha : a ∈ g.nodes) : (finishOne rel g a).nodes = g.nodes :=
  finish_inner_nodes a _ g ha

theorem finishOne_edges (rel : α → Finset α) (g : Graph α) (a : α)
    (ha : a ∈ g.nodes) (e : α × α) :
    e ∈ (finishOne rel g a).edges ↔
      e ∈ g.edges ∨ ∃ r ∈ rel a, r ∈ g.nodes ∧ (e = (a, r) ∨ e = (r, a)) := by
  rw [show finishOne rel g a =
      (listOf (rel a)).foldl (fun g r => if r ∈ g.nodes then g.addEdge a r else g) g
      from rfl, finish_inner_edges a e _ g ha]
  constructor
  · rintro (he | ⟨r, hr, hrn, he⟩)
    · exact Or.inl he
    · exact Or.inr ⟨r, mem_listOf.mp hr, hrn, he⟩
  · rintro (he | ⟨r, hr, hrn, he⟩)
    · exact Or.inl he
    · exact Or.inr ⟨r, mem_listOf.mpr hr, hrn, he⟩

theorem finishFold_nodes (rel : α → Finset α) :
    ∀ (l : List α) (g : Graph α), (∀ x ∈ l, x ∈ g.nodes) →
      (l.foldl (finishOne rel) g).nodes = g.nodes := by
  intro l
  induction l with
  | nil => intro g _; rfl
  | cons a l ih =>
    intro g h
    have ha : a ∈ g.nodes := h a (List.mem_cons_self a l)
    have hnodes := finishOne_nodes rel g a ha
    simp only [List.foldl_cons]
    rw [ih (finishOne rel g a)
      (fun x hx => by rw [hnodes]; exact h x (List.mem_cons_of_mem a hx)), hnodes]

theorem finishFold_edges (rel : α → Finset α) (e : α × α) :
    ∀ (l : List α) (g : Graph α), (∀ x ∈ l, x ∈ g.nodes) →
      (e ∈ (l.foldl (finishOne rel) g).edges ↔
        e ∈ g.edges ∨ ∃ a ∈ l, ∃ r ∈ rel a, r ∈ g.nodes ∧
          (e = (a, r) ∨ e = (r, a))) := by
  intro l
  induction l with
  | nil => intro g _; simp
  | cons a l ih =>
    intro g h
    have ha : a ∈ g.nodes := h a (List.mem_cons_self a l)
    have hnodes := finishOne_nodes rel g a ha
    simp only [List.foldl_cons]
    rw [ih (finishOne rel g a)
      (fun x hx => by rw [hnodes]; exact h x (List.mem_cons_of_mem a hx))]
    rw [finishOne_edges rel g a ha e, hnodes]
    constructor
    · rintro ((he | ⟨r, hr, hrn, he⟩) | ⟨a', ha', r, hr, hrn, he⟩)
      · exact Or.inl he
      · exact Or.inr ⟨a, List.mem_cons_self a l, r, hr, hrn, he⟩
      · exact Or.inr ⟨a', List.mem_cons_of_mem a ha', r, hr, hrn, he⟩
    · rintro (he | ⟨a', ha', r, hr, hrn, he⟩)
      · exact Or.inl (Or.inl he)
      · rcases List.mem_cons.mp ha' with rfl | ha'l
        · exact Or.inl (Or.inr ⟨r, hr, hrn, he⟩)
        · exact Or.inr ⟨a', ha'l, r, hr, hrn, he⟩

theorem finishPass_nodes (rel : α → Finset α) (g : Graph α) (na : Finset α)
    (h : ∀ x ∈ na, x ∈ g.nodes) : (finishPass rel g na).nodes = g.nodes :=
  finishFold_nodes rel (listOf na) g (fun x hx => h x (mem_listOf.mp hx))

theorem finishPass_edges (rel : α → Finset α) (g : Graph α) (na : Finset α)
    (h : ∀ x ∈ na, x ∈ g.nodes) (e : α × α) :
    e ∈ (finishPass rel g na).edges ↔
      e ∈ g.edges ∨ ∃ a ∈ na, ∃ r ∈ rel a, r ∈ g.nodes ∧
        (e = (a, r) ∨ e = (r, a)) := by
  rw [show finishPass rel g na = (listOf na).foldl (finishOne rel) g from rfl,
    finishFold_edges rel e (listOf na) g (fun x hx => h x (mem_listOf.mp hx))]
  constructor
  · rintro (he | ⟨a, ha, hrest⟩)
    · exact Or.inl he
    · exact Or.inr ⟨a, mem_listOf.mp ha, hrest⟩
  · rintro (he | ⟨a, ha, hrest⟩)
    · exact Or.inl he
    · exact Or.inr ⟨a, mem_listOf.mpr ha, hrest⟩

/-! ## Claims about `grow` -/

/-- C1: evaluation of `grow` at the claim's distinguished situation.  With
seeds `{0, 1}` and relation source `0 → {1}` the single expansion round
discovers no new node, yet its new edge `(0, 1)` connects the two seeds
(third conjunct).  The source still raises
`RuntimeError("No new artists found.")` (first conjunct) because the stall
check runs before the loop condition is re-examined — contradicting the
claim that `grow` returns normally in exactly this situation. -/
theorem claim_C1_stall_despite_connection :
    grow relA ({0, 1} : Finset Nat) none 5 = GrowResult.stalled ∧
    (expand relA {0, 1}
        (some ((Graph.empty : Graph Nat).addNodes {0, 1}))).nodes \
      ((Graph.empty : Graph Nat).addNodes {0, 1}).nodes = ∅ ∧
    allPairsB
      (expand relA {0, 1} (some ((Graph.empty : Graph Nat).addNodes {0, 1})))
      (listOf ({0, 1} : Finset Nat)) = true := by
  decide

/-- C2: evaluation of the spec's end-to-end scenario `a → {x}`, `x → {b}`,
`b → {}` (as `0, 1, 2`).  The source's `grow` raises
`RuntimeError("No new artists found.")` in its second round (first
conjunct) instead of returning the path graph the claim expects; `trim`
and `paths_subgraph` do behave as the claim states on that path graph
(second and third conjuncts). -/
theorem claim_C2_end_to_end_scenario :
    grow relB ({0, 2} : Finset Nat) none 10 = GrowResult.stalled ∧
    trim pathG {0, 2} = pathG ∧
    paths_subgraph pathG [0, 2] none =
      Except.ok (pathG, [((0, 2), [[0, 1, 2]])]) := by
  decide

/-- C9: single-seed boundary.  `grow({a})` returns the graph with node `a`
only (the loop body never runs; the finishing pass over `{a}` adds
nothing when `a ∉ rel a` since `a` itself is the only node), and
`paths_subgraph` with a one-element seed list returns an empty table and a
graph with no nodes. -/
theorem claim_C9_single_seed (rel : α → Finset α) (a : α) (fuel : Nat)
    (hfuel : 0 < fuel) (hself : a ∉ rel a) (g : Graph α) (ml : Option Nat) :
    grow rel {a} none fuel = GrowResult.ok ⟨{a}, ∅⟩ ∧
    ∃ G, paths_subgraph g [a] ml = Except.ok (G, []) ∧ G.nodes = ∅ := by
  constructor
  · obtain ⟨n, rfl⟩ : ∃ n, fuel = n + 1 :=
      ⟨fuel - 1, (Nat.succ_pred_eq_of_pos hfuel).symm⟩
    have hg0 : (Graph.empty : Graph α).addNodes {a} = (⟨{a}, ∅⟩ : Graph α) := by
      show (⟨∅ ∪ {a}, ∅⟩ : Graph α) = ⟨{a}, ∅⟩
      rw [Finset.empty_union]
    show growLoop rel {a} (n + 1) ((Graph.empty : Graph α).addNodes {a}) {a}
        = GrowResult.ok ⟨{a}, ∅⟩
    rw [hg0]
    have hlist : listOf ({a} : Finset α) = [a] := listOf_singleton a
    have hconn : allPairsB (⟨{a}, ∅⟩ : Graph α) (listOf ({a} : Finset α))
        = true := by
      rw [hlist]; rfl
    rw [growLoop, if_pos hconn]
    have hfin : finishPass rel (⟨{a}, ∅⟩ : Graph α) {a} = ⟨{a}, ∅⟩ := by
      show (listOf ({a} : Finset α)).foldl (finishOne rel) _ = _
      rw [hlist]
      show finishOne rel (⟨{a}, ∅⟩ : Graph α) a = ⟨{a}, ∅⟩
      apply finish_inner_id
      intro r hr hrn
      have : r = a := by
        simpa using hrn
      rw [this] at hr
      exact hself (mem_listOf.mp hr)
    rw [hfin]
  · refine ⟨g.removeNodes (g.nodes \ keepersOf []), rfl, ?_⟩
    show g.nodes \ (g.nodes \ keepersOf []) = ∅
    show g.nodes \ (g.nodes \ (∅ : Finset α)) = ∅
    rw [Finset.sdiff_empty, Finset.sdiff_self]

theorem claim_C9_single_seed_witness :
    grow (fun _ => (∅ : Finset Nat)) {0} none 1 = GrowResult.ok ⟨{0}, ∅⟩ ∧
    ∃ G, paths_subgraph pathG [0] none = Except.ok (G, []) ∧ G.nodes = ∅ :=
  claim_C9_single_seed (fun _ => (∅ : Finset Nat)) 0 1 (by decide) (by decide)
    pathG none

/-- C10 counterexample: on an already-connected base graph whose seed's
related entity is a node joined to it by an *already present* edge,
`grow` IS a no-op — its output equals the (copied) input graph — although
seed `0` has related entity `1` present in the graph.  This refutes the
claim's final clause. -/
theorem claim_C10_counterexample :
    grow relA ({0, 1} : Finset Nat) (some ⟨{0, 1}, {(0, 1), (1, 0)}⟩) 5 =
      GrowResult.ok ⟨{0, 1}, {(0, 1), (1, 0)}⟩ ∧
    1 ∈ relA 0 ∧ 1 ∈ (⟨{0, 1}, {(0, 1), (1, 0)}⟩ : Graph Nat).nodes := by
  decide

/-- C10 (amended): when all seed pairs are already connected in the copied
base graph with the seeds added as nodes, the expansion loop never runs
and `grow` returns that graph transformed by the finishing pass over the
seeds themselves: same nodes (base nodes plus seeds), plus an edge from
each seed to each of its related entities that is already a node.  It is
not a no-op whenever some seed has a related entity that is a node and the
corresponding edge is not already present. -/
theorem claim_C10_connected_base_finishing_pass (rel : α → Finset α)
    (seeds : Finset α) (base : Graph α) (fuel : Nat) (hfuel : 0 < fuel)
    (hconn : allPairsB (base.addNodes seeds) (listOf seeds) = true) :
    grow rel seeds (some base) fuel =
      GrowResult.ok (finishPass rel (base.addNodes seeds) seeds) ∧
    (base.addNodes seeds).nodes = base.nodes ∪ seeds ∧
    (finishPass rel (base.addNodes seeds) seeds).nodes
      = (base.addNodes seeds).nodes ∧
    (∀ e, e ∈ (finishPass rel (base.addNodes seeds) seeds).edges ↔
      e ∈ (base.addNodes seeds).edges ∨
        ∃ a ∈ seeds, ∃ r ∈ rel a, r ∈ (base.addNodes seeds).nodes ∧
          (e = (a, r) ∨ e = (r, a))) ∧
    (∀ a r, a ∈ seeds → r ∈ rel a → r ∈ (base.addNodes seeds).nodes →
      (a, r) ∉ (base.addNodes seeds).edges →
      finishPass rel (base.addNodes seeds) seeds ≠ base.addNodes seeds) := by
  have hseeds : ∀ x ∈ seeds, x ∈ (base.addNodes seeds).nodes := by
    intro x hx
    show x ∈ base.nodes ∪ seeds
    exact Finset.mem_union_right _ hx
  refine ⟨?_, rfl, finishPass_nodes rel _ seeds hseeds,
    fun e => finishPass_edges rel _ seeds hseeds e, ?_⟩
  · obtain ⟨n, rfl⟩ : ∃ n, fuel = n + 1 :=
      ⟨fuel - 1, (Nat.succ_pred_eq_of_pos hfuel).symm⟩
    show growLoop rel seeds (n + 1) (base.addNodes seeds) seeds = _
    rw [growLoop, if_pos hconn]
  · intro a r ha hr hrn hnotin heq
    have : (a, r) ∈ (finishPass rel (base.addNodes seeds) seeds).edges :=
      (finishPass_edges rel _ seeds hseeds (a, r)).mpr
        (Or.inr ⟨a, ha, r, hr, hrn, Or.inl rfl⟩)
    rw [heq] at this
    exact hnotin this

theorem claim_C10_connected_base_finishing_pass_witness :
    grow relA ({0} : Finset Nat) (some ⟨{0, 1}, ∅⟩) 1 =
      GrowResult.ok (finishPass relA ((⟨{0, 1}, ∅⟩ : Graph Nat).addNodes {0}) {0}) ∧
    finishPass relA ((⟨{0, 1}, ∅⟩ : Graph Nat).addNodes {0}) {0} ≠
      (⟨{0, 1}, ∅⟩ : Graph Nat).addNodes {0} := by
  have h := claim_C10_connected_base_finishing_pass relA ({0} : Finset Nat)
    ⟨{0, 1}, ∅⟩ 1 (by decide) (by decide)
  exact ⟨h.1, h.2.2.2.2 0 1 (by decide) (by decide) (by decide) (by decide)⟩

/-! ## Simple-path enumeration: soundness and completeness -/

theorem mem_neighbors {g : Graph α} {u w : α} :
    w ∈ neighbors g u ↔ Adj g u w := by
  unfold neighbors Adj
  simp only [Finset.mem_image, Finset.mem_filter]
  constructor
  · rintro ⟨⟨x, y⟩, ⟨he, hc⟩, hw⟩
    simp only at hc hw
    by_cases h1 : x = u
    · subst h1
      rw [if_pos rfl] at hw
      subst hw
      exact Or.inl he
    · have h2 : y = u := by
        rcases hc with hc | hc
        · exact absurd hc h1
        · exact hc
      subst h2
      rw [if_neg h1] at hw
      subst hw
      exact Or.inr he
  · rintro (h | h)
    · exact ⟨(u, w), ⟨h, Or.inl rfl⟩, by simp⟩
    · refine ⟨(w, u), ⟨h, Or.inr rfl⟩, ?_⟩
      by_cases hw : w = u
      · subst hw; simp
      · simp [hw]

theorem spAux_sound (g : Graph α) (v : α) :
    ∀ (fuel : Nat) (u : α) (vis : Finset α) (p : List α), u ∉ vis →
      p ∈ spAux g v fuel u vis →
      IsSimplePath g u v p ∧ ∀ x ∈ p, x ∉ vis := by
  intro fuel
  induction fuel with
  | zero => intro u vis p _ hp; simp [spAux] at hp
  | succ n ih =>
    intro u vis p hu hp
    rw [spAux] at hp
    by_cases huv : u = v
    · subst huv
      rw [if_pos rfl] at hp
      have hpv : p = [u] := by simpa using hp
      subst hpv
      refine ⟨⟨rfl, rfl, by simp, by simp⟩, ?_⟩
      intro x hx
      have : x = u := by simpa using hx
      subst this
      exact hu
    · rw [if_neg huv] at hp
      obtain ⟨w, hw, hpm⟩ := List.mem_flatMap.mp hp
      obtain ⟨q, hq, rfl⟩ := List.mem_map.mp hpm
      have hw' := Finset.mem_sdiff.mp (mem_listOf.mp hw)
      obtain ⟨⟨⟨hq1, hq2, hq3, hq4⟩, hq5⟩⟩ :
          (IsSimplePath g w v q ∧ ∀ x ∈ q, x ∉ insert u vis) ∧ True :=
        ⟨ih w (insert u vis) q hw'.2 hq, trivial⟩
      have hqne : q ≠ [] := by
        intro h; rw [h] at hq1; exact Option.noConfusion hq1
      have hlast : (u :: q).getLast? = some v := by
        rcases q with _ | ⟨b, t⟩
        · exact absurd rfl hqne
        · rw [List.getLast?_cons_cons]; exact hq2
      have hunotq : u ∉ q := fun h' => hq5 u h' (Finset.mem_insert_self u vis)
      refine ⟨⟨rfl, hlast, List.nodup_cons.mpr ⟨hunotq, hq3⟩, ?_⟩, ?_⟩
      · refine List.chain'_cons'.mpr ⟨?_, hq4⟩
        intro y hy
        rw [hq1] at hy
        have hwy : w = y := by simpa using hy
        subst hwy
        exact mem_neighbors.mp hw'.1
      · intro x hx
        rcases List.mem_cons.mp hx with rfl | hxq
        · exact hu
        · exact fun hxv => hq5 x hxq (Finset.mem_insert_of_mem hxv)

theorem spAux_complete (g : Graph α) (v : α) :
    ∀ (fuel : Nat) (u : α) (vis : Finset α) (p : List α),
      IsSimplePath g u v p → (∀ x ∈ p, x ∉ vis) → p.length ≤ fuel →
      p ∈ spAux g v fuel u vis := by
  intro fuel
  induction fuel with
  | zero =>
    intro u vis p hsp _ hlen
    obtain ⟨h1, _, _, _⟩ := hsp
    have : p = [] := List.length_eq_zero.mp (Nat.le_zero.mp hlen)
    rw [this] at h1
    exact Option.noConfusion h1
  | succ n ih =>
    intro u vis p hsp hvis hlen
    obtain ⟨h1, h2, h3, h4⟩ := hsp
    rcases p with _ | ⟨a, q⟩
    · exact Option.noConfusion h1
    · have ha : a = u := by simpa using h1
      subst ha
      rw [spAux]
      by_cases hav : a = v
      · subst hav
        have hq : q = [] := by
          rcases q with _ | ⟨b, t⟩
          · rfl
          · exfalso
            have h2' : (b :: t).getLast? = some a := by
              rw [← List.getLast?_cons_cons (a := a)]
              exact h2
            have : a ∈ b :: t :=
              List.mem_of_mem_getLast? (by rw [h2']; rfl)
            exact (List.nodup_cons.mp h3).1 this
        subst hq
        simp
      · rw [if_neg hav]
        rcases q with _ | ⟨w, t⟩
        · exfalso
          exact hav (by simpa using h2)
        · have hadj : Adj g a w := (List.chain'_cons.mp h4).1
          have huq : a ∉ w :: t := (List.nodup_cons.mp h3).1
          have hwvis' : w ∉ insert a vis := by
            rw [Finset.mem_insert]
            push_neg
            refine ⟨fun hwu => huq ?_, hvis w (List.mem_cons_of_mem a (List.mem_cons_self w t))⟩
            rw [← hwu]
            exact List.mem_cons_self w t
          apply List.mem_flatMap.mpr
          refine ⟨w, mem_listOf.mpr
            (Finset.mem_sdiff.mpr ⟨mem_neighbors.mpr hadj, hwvis'⟩), ?_⟩
          apply List.mem_map.mpr
          refine ⟨w :: t, ?_, rfl⟩
          apply ih w (insert a vis) (w :: t)
          · refine ⟨rfl, ?_, (List.nodup_cons.mp h3).2, (List.chain'_cons.mp h4).2⟩
            rw [← List.getLast?_cons_cons (a := a)]
            exact h2
          · intro x hx
            rw [Finset.mem_insert]
            push_neg
            exact ⟨fun hxu => huq (hxu ▸ hx),
              hvis x (List.mem_cons_of_mem a hx)⟩
          · have : (a :: w :: t).length = (w :: t).length + 1 := rfl
            omega

theorem tail_subset_edgeVerts (g : Graph α) :
    ∀ (p : List α), p.Chain' (Adj g) → ∀ x ∈ p.tail, x ∈ edgeVerts g := by
  intro p
  induction p with
  | nil => intro _ x hx; exact absurd hx (List.not_mem_nil x)
  | cons a q ih =>
    intro hch x hx
    rcases q with _ | ⟨b, t⟩
    · exact absurd hx (List.not_mem_nil x)
    · have hadj : Adj g a b := (List.chain'_cons.mp hch).1
      have hch' : (b :: t).Chain' (Adj g) := (List.chain'_cons.mp hch).2
      rcases List.mem_cons.mp hx with rfl | hxt
      · rcases hadj with h | h
        · exact Finset.mem_union_right _
            (Finset.mem_image.mpr ⟨(a, x), h, rfl⟩)
        · exact Finset.mem_union_left _
            (Finset.mem_image.mpr ⟨(x, a), h, rfl⟩)
      · exact ih hch' x hxt

theorem simplePath_length_le {g : Graph α} {u v : α} {p : List α}
    (h : IsSimplePath g u v p) : p.length ≤ 2 * g.edges.card + 1 := by
  obtain ⟨h1, _, h3, h4⟩ := h
  rcases p with _ | ⟨a, q⟩
  · exact Option.noConfusion h1
  · have hsub : (a :: q).toFinset ⊆ insert a (edgeVerts g) := by
      intro x hx
      rcases List.mem_cons.mp (List.mem_toFinset.mp hx) with rfl | hxq
      · exact Finset.mem_insert_self x _
      · exact Finset.mem_insert_of_mem
          (tail_subset_edgeVerts g (a :: q) h4 x hxq)
    have hcard := Finset.card_le_card hsub
    rw [List.toFinset_card_of_nodup h3] at hcard
    have hle : (insert a (edgeVerts g)).card ≤ (edgeVerts g).card + 1 :=
      Finset.card_insert_le a _
    have hverts : (edgeVerts g).card ≤ 2 * g.edges.card := by
      have := Finset.card_union_le (g.edges.image Prod.fst)
        (g.edges.image Prod.snd)
      have hf := Finset.card_image_le (s := g.edges) (f := Prod.fst)
      have hs := Finset.card_image_le (s := g.edges) (f := Prod.snd)
      unfold edgeVerts
      omega
    omega

theorem mem_allSimplePaths {g : Graph α} {u v : α} {p : List α} :
    p ∈ allSimplePaths g u v ↔ IsSimplePath g u v p := by
  constructor
  · intro hp
    exact (spAux_sound g v _ u ∅ p (Finset.not_mem_empty u) hp).1
  · intro hp
    apply spAux_complete g v _ u ∅ p hp (fun x _ => Finset.not_mem_empty x)
    have := simplePath_length_le hp
    omega

theorem mem_sortedPaths {g : Graph α} {u v : α} {p : List α} :
    p ∈ sortedPaths g u v ↔ IsSimplePath g u v p := by
  rw [sortedPaths, List.mem_insertionSort, mem_allSimplePaths]

theorem sortedPaths_sorted (g : Graph α) (u v : α) :
    List.Sorted lenLE (sortedPaths g u v) :=
  List.sorted_insertionSort lenLE _

theorem no_simplePath_of_allSimplePaths_nil {g : Graph α} {u v : α}
    (h : allSimplePaths g u v = []) : ∀ p, ¬ IsSimplePath g u v p := by
  intro p hp
  have := mem_allSimplePaths.mpr hp
  rw [h] at this
  exact List.not_mem_nil p this

theorem ssp_ok_sortedPaths {g : Graph α} {u v : α} {ss : List (List α)}
    (h : shortest_simple_paths g u v = .ok ss) : ss = sortedPaths g u v := by
  unfold shortest_simple_paths at h
  by_cases h1 : u ∉ g.nodes
  · rw [if_pos h1] at h; exact Except.noConfusion h
  · rw [if_neg h1] at h
    by_cases h2 : v ∉ g.nodes
    · rw [if_pos h2] at h; exact Except.noConfusion h
    · rw [if_neg h2] at h
      rcases hsp : sortedPaths g u v with _ | ⟨p, ps⟩
      · rw [hsp] at h; exact Except.noConfusion h
      · rw [hsp] at h
        exact (Except.ok.inj h).symm

/-! ## The per-pair collection loop -/

theorem mem_collectPaths_some (m : Nat) :
    ∀ (ss : List (List α)), List.Sorted lenLE ss →
      ∀ q, (q ∈ collectPaths (some m) ss ↔ q ∈ ss ∧ q.length ≤ m) := by
  intro ss
  induction ss with
  | nil => intro _ q; simp [collectPaths]
  | cons p ps ih =>
    intro hs q
    have hhead := (List.sorted_cons.mp hs).1
    have hps := (List.sorted_cons.mp hs).2
    by_cases hm : p.length ≤ m
    · rw [show collectPaths (some m) (p :: ps)
          = p :: collectPaths (some m) ps by simp [collectPaths, hm]]
      constructor
      · intro hq
        rcases List.mem_cons.mp hq with rfl | hq'
        · exact ⟨List.mem_cons_self q ps, hm⟩
        · obtain ⟨hq1, hq2⟩ := (ih hps q).mp hq'
          exact ⟨List.mem_cons_of_mem p hq1, hq2⟩
      · rintro ⟨hq, hlen⟩
        rcases List.mem_cons.mp hq with rfl | hq'
        · exact List.mem_cons_self q _
        · exact List.mem_cons_of_mem p ((ih hps q).mpr ⟨hq', hlen⟩)
    · rw [show collectPaths (some m) (p :: ps) = [] by simp [collectPaths, hm]]
      constructor
      · intro hq; exact absurd hq (List.not_mem_nil q)
      · rintro ⟨hq, hlen⟩
        rcases List.mem_cons.mp hq with rfl | hq'
        · exact absurd hlen hm
        · exact absurd (Nat.le_trans (hhead q hq') hlen) hm

theorem mem_collectPaths_none :
    ∀ (ss : List (List α)), List.Sorted lenLE ss →
      ∀ q, (q ∈ collectPaths none ss ↔
        q ∈ ss ∧ ∀ r ∈ ss, q.length ≤ r.length) := by
  intro ss
  induction ss with
  | nil => intro _ q; simp [collectPaths]
  | cons p ps _ =>
    intro hs q
    have hhead := (List.sorted_cons.mp hs).1
    have hps := (List.sorted_cons.mp hs).2
    rw [show collectPaths none (p :: ps)
        = p :: collectPaths (some p.length) ps from rfl]
    constructor
    · intro hq
      rcases List.mem_cons.mp hq with rfl | hq'
      · refine ⟨List.mem_cons_self q ps, ?_⟩
        intro r hr
        rcases List.mem_cons.mp hr with rfl | hr'
        · exact Nat.le_refl _
        · exact hhead r hr'
      · obtain ⟨hq1, hq2⟩ := (mem_collectPaths_some p.length ps hps q).mp hq'
        refine ⟨List.mem_cons_of_mem p hq1, ?_⟩
        intro r hr
        rcases List.mem_cons.mp hr with rfl | hr'
        · exact hq2
        · exact Nat.le_trans hq2 (hhead r hr')
    · rintro ⟨hq, hmin⟩
      rcases List.mem_cons.mp hq with rfl | hq'
      · exact List.mem_cons_self q _
      · exact List.mem_cons_of_mem p
          ((mem_collectPaths_some p.length ps hps q).mpr
            ⟨hq', hmin p (List.mem_cons_self p ps)⟩)

/-! ## The path table -/

theorem buildTable_entry {g : Graph α} {ml : Option Nat} :
    ∀ (prs : List (α × α)) (tbl : List ((α × α) × List (List α))),
      buildTable g ml prs = .ok tbl →
      ∀ u v ps, ((u, v), ps) ∈ tbl →
        ∃ ss, shortest_simple_paths g u v = .ok ss ∧ ps = collectPaths ml ss := by
  intro prs
  induction prs with
  | nil =>
    intro tbl htbl u v ps hmem
    have : tbl = [] := (Except.ok.inj htbl).symm
    rw [this] at hmem
    exact absurd hmem (List.not_mem_nil _)
  | cons pr prs ih =>
    intro tbl htbl u v ps hmem
    rcases hpf : pathsFor g ml pr.1 pr.2 with e | entry
    · rw [show buildTable g ml (pr :: prs) = .error e by
        simp [buildTable, hpf]] at htbl
      exact Except.noConfusion htbl
    · rcases hbt : buildTable g ml prs with e' | t
      · rw [show buildTable g ml (pr :: prs) = .error e' by
          simp [buildTable, hpf, hbt]] at htbl
        exact Except.noConfusion htbl
      · rw [show buildTable g ml (pr :: prs) = .ok ((pr, entry) :: t) by
          simp [buildTable, hpf, hbt]] at htbl
        have htbl' : tbl = (pr, entry) :: t := (Except.ok.inj htbl).symm
        rw [htbl'] at hmem
        rcases List.mem_cons.mp hmem with heq | hmem'
        · have h1 : (u, v) = pr := congrArg Prod.fst heq
          have h2 : ps = entry := congrArg Prod.snd heq
          subst h1
          subst h2
          have hpf' : pathsFor g ml u v = Except.ok ps := hpf
          rcases hssp : shortest_simple_paths g u v with e'' | ss
          · have herr : pathsFor g ml u v = .error e'' := by
              simp [pathsFor, hssp, Except.map]
            rw [herr] at hpf'
            exact Except.noConfusion hpf'
          · refine ⟨ss, rfl, ?_⟩
            have hcoll : pathsFor g ml u v = .ok (collectPaths ml ss) := by
              simp [pathsFor, hssp, Except.map]
            rw [hcoll] at hpf'
            exact (Except.ok.inj hpf').symm
        · exact ih t hbt u v ps hmem'

theorem buildTable_error {g : Graph α} {ml : Option Nat} :
    ∀ (prs : List (α × α)) (pr : α × α), pr ∈ prs →
      (∃ e, pathsFor g ml pr.1 pr.2 = .error e) →
      ∀ tbl, buildTable g ml prs ≠ .ok tbl := by
  intro prs
  induction prs with
  | nil => intro pr hpr; exact absurd hpr (List.not_mem_nil pr)
  | cons pr' prs ih =>
    rintro pr hpr ⟨e, he⟩ tbl htbl
    rcases hpf : pathsFor g ml pr'.1 pr'.2 with e' | entry
    · rw [show buildTable g ml (pr' :: prs) = .error e' by
        simp [buildTable, hpf]] at htbl
      exact Except.noConfusion htbl
    · have hpr'' : pr ∈ prs := by
        rcases List.mem_cons.mp hpr with rfl | h
        · rw [he] at hpf; exact Except.noConfusion hpf
        · exact h
      rcases hbt : buildTable g ml prs with e'' | t
      · rw [show buildTable g ml (pr' :: prs) = .error e'' by
          simp [buildTable, hpf, hbt]] at htbl
        exact Except.noConfusion htbl
      · exact ih pr hpr'' ⟨e, he⟩ t hbt

theorem pathsFor_error_of_no_path {g : Graph α} {ml : Option Nat} {u v : α}
    (h : ∀ p, ¬ IsSimplePath g u v p) :
    ∃ e, pathsFor g ml u v = .error e := by
  unfold pathsFor shortest_simple_paths
  by_cases h1 : u ∉ g.nodes
  · exact ⟨.nodeNotFound, by simp [h1, Except.map]⟩
  · by_cases h2 : v ∉ g.nodes
    · exact ⟨.nodeNotFound, by simp [h1, h2, Except.map]⟩
    · have hnil : sortedPaths g u v = [] := by
        rw [List.eq_nil_iff_forall_not_mem]
        intro p hp
        exact h p (mem_sortedPaths.mp hp)
      exact ⟨.noPath, by simp [h1, h2, hnil, Except.map]⟩

/-! ## Claims about `paths_subgraph` -/

/-- C3 counterexample: on the two-node edgeless graph with seeds `{0, 1}`,
`paths_subgraph` propagates `NetworkXNoPath` instead of returning an empty
path list for the pair. -/
theorem claim_C3_counterexample :
    paths_subgraph (⟨{0, 1}, ∅⟩ : Graph Nat) [0, 1] none =
      Except.error NxError.noPath := by
  decide

/-- C3 (amended): if some unordered pair of seeds has no connecting path in
the graph, `paths_subgraph` does not return normally: the
`NetworkXNoPath` (or `NodeNotFound`) error raised by
`nx.shortest_simple_paths` propagates. -/
theorem claim_C3_no_path_errors (g : Graph α) (seeds : List α)
    (ml : Option Nat) (u v : α) (hpr : (u, v) ∈ pairsOf seeds)
    (hnp : ∀ p, ¬ IsSimplePath g u v p) :
    ∀ res, paths_subgraph g seeds ml ≠ Except.ok res := by
  intro res h
  unfold paths_subgraph at h
  rcases hbt : buildTable g ml (pairsOf seeds) with e | tbl
  · rw [hbt] at h
    exact Except.noConfusion h
  · exact buildTable_error (pairsOf seeds) (u, v) hpr
      (pathsFor_error_of_no_path hnp) tbl hbt

theorem claim_C3_no_path_errors_witness :
    paths_subgraph (⟨{0, 1}, ∅⟩ : Graph Nat) [0, 1] none ≠
      Except.ok (⟨∅, ∅⟩, []) :=
  claim_C3_no_path_errors (⟨{0, 1}, ∅⟩ : Graph Nat) [0, 1] none 0 1
    (by decide)
    (no_simplePath_of_allSimplePaths_nil (by decide))
    (⟨∅, ∅⟩, [])

/-- C4: with a given bound `max_len`, the table entry of every seed pair
contains exactly the simple paths between the pair whose length (number of
nodes, Python's `len(path)`) is at most `max_len`. -/
theorem claim_C4_bounded_collection (g : Graph α) (seeds : List α) (m : Nat)
    (G : Graph α) (tbl : List ((α × α) × List (List α)))
    (hok : paths_subgraph g seeds (some m) = Except.ok (G, tbl))
    (u v : α) (ps : List (List α)) (hmem : ((u, v), ps) ∈ tbl) (q : List α) :
    q ∈ ps ↔ IsSimplePath g u v q ∧ q.length ≤ m := by
  unfold paths_subgraph at hok
  rcases hbt : buildTable g (some m) (pairsOf seeds) with e | tbl'
  · rw [hbt] at hok
    exact Except.noConfusion hok
  · rw [hbt] at hok
    have htbl : tbl' = tbl := congrArg Prod.snd (Except.ok.inj hok)
    rw [htbl] at hbt
    obtain ⟨ss, hss, hps⟩ := buildTable_entry (pairsOf seeds) tbl hbt u v ps hmem
    have hsseq := ssp_ok_sortedPaths hss
    rw [hps, hsseq,
      mem_collectPaths_some m (sortedPaths g u v) (sortedPaths_sorted g u v) q,
      mem_sortedPaths]

theorem claim_C4_bounded_collection_witness :
    (([0, 1, 2] ∈ ([] : List (List Nat))) ↔
      (IsSimplePath pathG 0 2 [0, 1, 2] ∧ ([0, 1, 2] : List Nat).length ≤ 2)) ∧
    1 ∉ (⟨∅, ∅⟩ : Graph Nat).nodes :=
  ⟨claim_C4_bounded_collection pathG [0, 2] 2 ⟨∅, ∅⟩ [((0, 2), [])]
    (by decide) 0 2 [] (by decide) [0, 1, 2],
   by decide⟩

/-- C5: with `max_len` omitted, the table entry of every seed pair contains
exactly the simple paths of minimal length (number of nodes) between that
pair: the first enumerated path fixes the cutoff, all later paths of the
same length are collected, and nothing longer is. -/
theorem claim_C5_minimal_collection (g : Graph α) (seeds : List α)
    (G : Graph α) (tbl : List ((α × α) × List (List α)))
    (hok : paths_subgraph g seeds none = Except.ok (G, tbl))
    (u v : α) (ps : List (List α)) (hmem : ((u, v), ps) ∈ tbl) (q : List α) :
    q ∈ ps ↔ IsSimplePath g u v q ∧
      ∀ r, IsSimplePath g u v r → q.length ≤ r.length := by
  unfold paths_subgraph at hok
  rcases hbt : buildTable g none (pairsOf seeds) with e | tbl'
  · rw [hbt] at hok
    exact Except.noConfusion hok
  · rw [hbt] at hok
    have htbl : tbl' = tbl := congrArg Prod.snd (Except.ok.inj hok)
    rw [htbl] at hbt
    obtain ⟨ss, hss, hps⟩ := buildTable_entry (pairsOf seeds) tbl hbt u v ps hmem
    have hsseq := ssp_ok_sortedPaths hss
    rw [hps, hsseq,
      mem_collectPaths_none (sortedPaths g u v) (sortedPaths_sorted g u v) q]
    constructor
    · rintro ⟨hq1, hq2⟩
      exact ⟨mem_sortedPaths.mp hq1,
        fun r hr => hq2 r (mem_sortedPaths.mpr hr)⟩
    · rintro ⟨hq1, hq2⟩
      exact ⟨mem_sortedPaths.mpr hq1,
        fun r hr => hq2 r (mem_sortedPaths.mp hr)⟩

theorem claim_C5_minimal_collection_witness :
    ([0, 1, 2, 3] ∈ [[0, 1, 2, 3], [0, 4, 5, 3]]) ↔
      (IsSimplePath twoPathsG 0 3 [0, 1, 2, 3] ∧
        ∀ r, IsSimplePath twoPathsG 0 3 r →
          ([0, 1, 2, 3] : List Nat).length ≤ r.length) :=
  claim_C5_minimal_collection twoPathsG [0, 3] twoPathsG
    [((0, 3), [[0, 1, 2, 3], [0, 4, 5, 3]])]
    (by decide) 0 3 [[0, 1, 2, 3], [0, 4, 5, 3]] (by decide) [0, 1, 2, 3]

/-! ## Store lemmas: the copy-then-mutate discipline never touches the input -/

theorem getRef_setRef_ne {s : Store α} {r r' : Ref} {g : Graph α}
    (h : r ≠ r') : getRef (setRef s r g) r' = getRef s r' := by
  unfold getRef setRef
  rw [List.getD_eq_getElem?_getD, List.getD_eq_getElem?_getD,
    List.getElem?_set_ne h]

theorem length_setRef (s : Store α) (r : Ref) (g : Graph α) :
    (setRef s r g).length = s.length :=
  List.length_set s r g

theorem getRef_append {s : Store α} {l : List (Graph α)} {r : Ref}
    (h : r < s.length) : getRef (s ++ l) r = getRef s r := by
  unfold getRef
  rw [List.getD_eq_getElem?_getD, List.getD_eq_getElem?_getD,
    List.getElem?_append_left h]

theorem foldl_touchesOnly {β : Type} (r : Ref) (f : Store α → β → Store α)
    (hf : ∀ s b, (f s b).length = s.length ∧
      ∀ r', r' ≠ r → getRef (f s b) r' = getRef s r') :
    ∀ (l : List β) (s : Store α),
      (l.foldl f s).length = s.length ∧
      ∀ r', r' ≠ r → getRef (l.foldl f s) r' = getRef s r' := by
  intro l
  induction l with
  | nil => intro s; exact ⟨rfl, fun _ _ => rfl⟩
  | cons b l ih =>
    intro s
    obtain ⟨h1, h2⟩ := hf s b
    obtain ⟨h3, h4⟩ := ih (f s b)
    rw [List.foldl_cons]
    exact ⟨by rw [h3, h1], fun r' hr' => by rw [h4 r' hr', h2 r' hr']⟩

theorem expandImp_spec (rel : α → Finset α) (artists : Finset α) (r0 : Ref)
    (s : Store α) :
    (expandImp rel artists (some r0) s).2 = s.length ∧
    (expandImp rel artists (some r0) s).1.length = s.length + 1 ∧
    ∀ r' < s.length,
      getRef (expandImp rel artists (some r0) s).1 r' = getRef s r' := by
  have hstep : ∀ (a : α) (s' : Store α) (rc : α),
      ((setRef s' s.length ((getRef s' s.length).addEdge a rc)).length
        = s'.length) ∧
      ∀ r', r' ≠ s.length →
        getRef (setRef s' s.length ((getRef s' s.length).addEdge a rc)) r'
          = getRef s' r' :=
    fun a s' rc => ⟨length_setRef s' s.length _,
      fun r' hr' => getRef_setRef_ne (Ne.symm hr')⟩
  have houter := foldl_touchesOnly (α := α) s.length
    (fun s' a => (listOf (rel a)).foldl
      (fun s'' rc => setRef s'' s.length ((getRef s'' s.length).addEdge a rc)) s')
    (fun s' a => foldl_touchesOnly s.length _ (hstep a) (listOf (rel a)) s')
    (listOf artists)
  unfold expandImp alloc
  simp only []
  have h := houter (setRef (s ++ [getRef s r0]) s.length
    ((getRef (s ++ [getRef s r0]) s.length).addNodes artists))
  refine ⟨trivial, ?_, ?_⟩
  · rw [h.1, length_setRef, List.length_append]
    rfl
  · intro r' hr'
    rw [h.2 r' (Nat.ne_of_lt hr'),
      getRef_setRef_ne (Ne.symm (Nat.ne_of_lt hr')), getRef_append hr']

theorem growLoopImp_frame (rel : α → Finset α) (seeds : Finset α) (n : Nat) :
    ∀ (fuel : Nat) (s : Store α) (r : Ref) (na : Finset α),
      n ≤ s.length → n ≤ r →
      n ≤ (growLoopImp rel seeds fuel s r na).1.length ∧
      (∀ r' < n, getRef (growLoopImp rel seeds fuel s r na).1 r'
        = getRef s r') ∧
      (∀ rf naf, (growLoopImp rel seeds fuel s r na).2
        = Except.ok (rf, naf) → n ≤ rf) := by
  intro fuel
  induction fuel with
  | zero =>
    intro s r na hs hr
    exact ⟨hs, fun _ _ => rfl, fun rf naf h => Except.noConfusion h⟩
  | succ m ih =>
    intro s r na hs hr
    rw [growLoopImp]
    by_cases hconn : allPairsB (getRef s r) (listOf seeds) = true
    · rw [if_pos hconn]
      refine ⟨hs, fun _ _ => rfl, fun rf naf h => ?_⟩
      have hrrf : r = rf := congrArg Prod.fst (Except.ok.inj h)
      exact hrrf ▸ hr
    · rw [if_neg hconn]
      obtain ⟨he2, he1, heframe⟩ := expandImp_spec rel na r s
      by_cases hna : (getRef (expandImp rel na (some r) s).1
            (expandImp rel na (some r) s).2).nodes \
          (getRef (expandImp rel na (some r) s).1 r).nodes = ∅
      · rw [if_pos hna]
        refine ⟨?_, ?_, fun rf naf h => Except.noConfusion h⟩
        · show n ≤ (expandImp rel na (some r) s).1.length
          rw [he1]
          omega
        · intro r' hr'
          exact heframe r' (Nat.lt_of_lt_of_le hr' hs)
      · rw [if_neg hna]
        have hlen1 : n ≤ (expandImp rel na (some r) s).1.length := by
          rw [he1]
          omega
        have hlen2 : n ≤ (expandImp rel na (some r) s).2 := by
          rw [he2]
          exact hs
        obtain ⟨ih1, ih2, ih3⟩ := ih (expandImp rel na (some r) s).1
          (expandImp rel na (some r) s).2 _ hlen1 hlen2
        refine ⟨ih1, ?_, ih3⟩
        intro r' hr'
        rw [ih2 r' hr', heframe r' (Nat.lt_of_lt_of_le hr' hs)]

theorem finishImp_frame (rel : α → Finset α) (s : Store α) (r : Ref)
    (na : Finset α) :
    ∀ r', r' ≠ r → getRef (finishImp rel s r na) r' = getRef s r' := by
  have hstep : ∀ (a : α) (s' : Store α) (rc : α),
      ((if rc ∈ (getRef s' r).nodes
          then setRef s' r ((getRef s' r).addEdge a rc) else s').length
        = s'.length) ∧
      ∀ r'', r'' ≠ r →
        getRef (if rc ∈ (getRef s' r).nodes
          then setRef s' r ((getRef s' r).addEdge a rc) else s') r''
          = getRef s' r'' := by
    intro a s' rc
    by_cases hrc : rc ∈ (getRef s' r).nodes
    · rw [if_pos hrc]
      exact ⟨length_setRef s' r _,
        fun r'' hr'' => getRef_setRef_ne (Ne.symm hr'')⟩
    · rw [if_neg hrc]
      exact ⟨rfl, fun _ _ => rfl⟩
  have h := foldl_touchesOnly (α := α) r
    (fun s' a => (listOf (rel a)).foldl
      (fun s'' rc => if rc ∈ (getRef s'' r).nodes
        then setRef s'' r ((getRef s'' r).addEdge a rc) else s'') s')
    (fun s' a => foldl_touchesOnly r _ (hstep a) (listOf (rel a)) s')
    (listOf na) s
  exact h.2

theorem trimLoopImp_frame (keepers : Finset α) :
    ∀ (fuel : Nat) (s : Store α) (r : Ref) (r' : Ref), r' ≠ r →
      getRef (trimLoopImp keepers fuel s r) r' = getRef s r' := by
  intro fuel
  induction fuel with
  | zero => intro s r r' _; rfl
  | succ m ih =>
    intro s r r' hr'
    rw [trimLoopImp]
    by_cases htr : toRemove (getRef s r) keepers = ∅
    · rw [if_pos htr]
    · rw [if_neg htr, ih _ _ _ hr', getRef_setRef_ne (Ne.symm hr')]

theorem growInit_spec (seeds : Finset α) (r0 : Ref) (s : Store α) :
    (growInit seeds (some r0) s).2 = s.length ∧
    (growInit seeds (some r0) s).1.length = s.length + 1 ∧
    ∀ r' < s.length,
      getRef (growInit seeds (some r0) s).1 r' = getRef s r' := by
  unfold growInit alloc
  simp only []
  refine ⟨trivial, ?_, ?_⟩
  · rw [length_setRef, List.length_append]
    rfl
  · intro r' hr'
    rw [getRef_setRef_ne (Ne.symm (Nat.ne_of_lt hr')), getRef_append hr']

theorem growImp_frame (rel : α → Finset α) (seeds : Finset α) (fuel : Nat)
    (r0 : Ref) (s : Store α) (h : r0 < s.length) :
    getRef (growImp rel seeds (some r0) fuel s).1 r0 = getRef s r0 ∧
    ∀ rf, (growImp rel seeds (some r0) fuel s).2 = Except.ok rf → rf ≠ r0 := by
  obtain ⟨hq2, hq1, hqf⟩ := growInit_spec seeds r0 s
  have harg1 : s.length ≤ (growInit seeds (some r0) s).1.length := by
    rw [hq1]
    omega
  have harg2 : s.length ≤ (growInit seeds (some r0) s).2 := by
    rw [hq2]
  obtain ⟨hl1, hl2, hl3⟩ := growLoopImp_frame rel seeds s.length fuel
    (growInit seeds (some r0) s).1 (growInit seeds (some r0) s).2 seeds
    harg1 harg2
  rcases hloop : growLoopImp rel seeds fuel (growInit seeds (some r0) s).1
      (growInit seeds (some r0) s).2 seeds with ⟨sL, e | t⟩
  · rw [hloop] at hl2
    have hgrow : growImp rel seeds (some r0) fuel s = (sL, .error e) := by
      rw [growImp]
      rw [hloop]
    rw [hgrow]
    refine ⟨?_, fun rf hrf => Except.noConfusion hrf⟩
    rw [hl2 r0 h, hqf r0 h]
  · rw [hloop] at hl2 hl3
    have hrf : s.length ≤ t.1 := hl3 t.1 t.2 rfl
    have hgrow : growImp rel seeds (some r0) fuel s
        = (finishImp rel sL t.1 t.2, .ok t.1) := by
      rw [growImp]
      rw [hloop]
    rw [hgrow]
    have hlt : r0 < t.1 := Nat.lt_of_lt_of_le h hrf
    constructor
    · rw [finishImp_frame rel sL t.1 t.2 r0 (Nat.ne_of_lt hlt), hl2 r0 h,
        hqf r0 h]
    · intro rf hrf'
      have hteq : t.1 = rf := Except.ok.inj hrf'
      exact Ne.symm (Nat.ne_of_lt (hteq ▸ hlt))

theorem trimImp_frame (keepers : Finset α) (r0 : Ref) (s : Store α)
    (h : r0 < s.length) :
    getRef (trimImp keepers r0 s).1 r0 = getRef s r0 ∧
    (trimImp keepers r0 s).2 ≠ r0 := by
  unfold trimImp alloc
  simp only []
  constructor
  · rw [trimLoopImp_frame keepers _ _ _ r0 (Nat.ne_of_lt h),
      getRef_append h]
  · exact Nat.ne_of_gt h

theorem paths_subgraphImp_frame (sds : List α) (ml : Option Nat) (r0 : Ref)
    (s : Store α) (h : r0 < s.length) :
    getRef (paths_subgraphImp r0 sds ml s).1 r0 = getRef s r0 ∧
    ∀ rf, (paths_subgraphImp r0 sds ml s).2 = Except.ok rf → rf ≠ r0 := by
  unfold paths_subgraphImp alloc
  simp only []
  rcases hbt : buildTable (getRef (s ++ [getRef s r0]) s.length) ml
      (pairsOf sds) with e | tbl
  · exact ⟨getRef_append h, fun rf hrf => Except.noConfusion hrf⟩
  · refine ⟨?_, fun rf hrf => ?_⟩
    · rw [getRef_setRef_ne (Nat.ne_of_gt h), getRef_append h]
    · have hlen : s.length = rf := Except.ok.inj hrf
      exact Ne.symm (Nat.ne_of_lt (hlen ▸ h))

/-! ## Claim C8: no core operation mutates its input graph -/

/-- C8: over the store model, each of `expand`, `grow`, `trim` and
`paths_subgraph` leaves the caller's graph object untouched (same nodes
and edges after the call) and builds its result in a freshly allocated
object, never the input one. -/
theorem claim_C8_no_mutation (rel : α → Finset α)
    (artists seeds keepers : Finset α) (sds : List α) (ml : Option Nat)
    (fuel : Nat) (s : Store α) (r0 : Ref) (h : r0 < s.length) :
    (getRef (expandImp rel artists (some r0) s).1 r0 = getRef s r0 ∧
      (expandImp rel artists (some r0) s).2 ≠ r0) ∧
    (getRef (growImp rel seeds (some r0) fuel s).1 r0 = getRef s r0 ∧
      ∀ rf, (growImp rel seeds (some r0) fuel s).2 = Except.ok rf → rf ≠ r0) ∧
    (getRef (trimImp keepers r0 s).1 r0 = getRef s r0 ∧
      (trimImp keepers r0 s).2 ≠ r0) ∧
    (getRef (paths_subgraphImp r0 sds ml s).1 r0 = getRef s r0 ∧
      ∀ rf, (paths_subgraphImp r0 sds ml s).2 = Except.ok rf → rf ≠ r0) := by
  refine ⟨⟨(expandImp_spec rel artists r0 s).2.2 r0 h, ?_⟩,
    growImp_frame rel seeds fuel r0 s h,
    trimImp_frame keepers r0 s h,
    paths_subgraphImp_frame sds ml r0 s h⟩
  have h2 := (expandImp_spec rel artists r0 s).1
  rw [h2]
  exact Nat.ne_of_gt h

theorem claim_C8_no_mutation_witness :
    (getRef (expandImp relA {0} (some 0) [pathG]).1 0 = getRef [pathG] 0 ∧
      (expandImp relA {0} (some 0) [pathG]).2 ≠ 0) ∧
    (getRef (growImp relA {0} (some 0) 1 [pathG]).1 0 = getRef [pathG] 0 ∧
      ∀ rf, (growImp relA {0} (some 0) 1 [pathG]).2 = Except.ok rf → rf ≠ 0) ∧
    (getRef (trimImp ∅ 0 [pathG]).1 0 = getRef [pathG] 0 ∧
      (trimImp ∅ 0 [pathG]).2 ≠ 0) ∧
    (getRef (paths_subgraphImp 0 [0] none [pathG]).1 0 = getRef [pathG] 0 ∧
      ∀ rf, (paths_subgraphImp 0 [0] none [pathG]).2 = Except.ok rf → rf ≠ 0) :=
  claim_C8_no_mutation relA {0} {0} ∅ [0] none 1 [pathG] 0 (by decide)

end MusicUtils
